import Mathlib

/-!
# BloomFilter (akshtrikha/BloomFilter, `main.go`)

A shallow embedding of the Bloom filter of `main.go`: the hash-function set
(`HashFns`, `generateHashFns`, `murmurHash`) and the packed bit array
(`BloomFilter`, `NewBloomFilter`, `Add`, `Exists`).

Conventions of the embedding.

* `uint32` and `uint8` values are natural numbers; every operation that can wrap
  is written with an explicit `% 2 ^ 32` (or `% 256`).
* A Go string is the list of its bytes.
* The mutable objects (`*HashFns`, `*BloomFilter`) are passed and returned
  explicitly.  A call either returns (`Outcome.ok`, with the returned value and
  the objects as the call left them) or stops in a run-time panic
  (`Outcome.panic`, with the cause and the objects as they were when it stopped).
* `time.Now().UnixNano()` is a parameter: the sequence of readings of the clock.
* `hash.Hash32` values come from `github.com/spaolacci/murmur3`, which is not
  part of the repository; they are modelled by their seed and the bytes written
  since the last `Reset`, and `Sum32` is MurmurHash3 (x86, 32 bit) of those bytes.
-/

namespace BloomFilter

/-! ## Machine integers and run-time outcomes -/

/-- One byte of a Go string. -/
abbrev Byte := Fin 256

/-- A Go `string`, as the sequence of its bytes. -/
abbrev Key := List Byte

/-- Number of values of a `uint32`. -/
def U32 : Nat := 2 ^ 32

/-- Cause of a Go run-time panic that the code of `main.go` can raise. -/
inductive PanicKind where
  | indexOutOfRange
  | divideByZero
  deriving DecidableEq

/-- Result of running a call on mutable state of type `σ`: either it returns
`val` leaving the state `st`, or it panics with the state as it then was. -/
inductive Outcome (σ α : Type) where
  | ok (val : α) (st : σ)
  | panic (why : PanicKind) (st : σ)
  deriving DecidableEq

/-! ## MurmurHash3 (x86, 32 bit), the digest behind `murmur3.New32WithSeed` -/

/-- Rotate a 32-bit word left by `r` bits, as `bits.RotateLeft32`. -/
def rotl32 (x r : Nat) : Nat :=
  ((x <<< r) ||| (x >>> (32 - r))) % U32

/-- The scrambling of one input word `k1` (multiply, rotate, multiply). -/
def mixK1 (k1 : Nat) : Nat :=
  (rotl32 ((k1 * 0xcc9e2d51) % U32) 15 * 0x1b873593) % U32

/-- Body of the block loop of `bmix`: fold the 4-byte little-endian blocks of the
input into the running hash `h1`, then fold in the 1 to 3 bytes of the tail. -/
def bmix : Nat → Key → Nat
  | h1, b0 :: b1 :: b2 :: b3 :: rest =>
    let k1 := b0.val ||| (b1.val <<< 8) ||| (b2.val <<< 16) ||| (b3.val <<< 24)
    let h1 := h1 ^^^ mixK1 k1
    let h1 := rotl32 h1 13
    let h1 := (h1 * 4 + h1 + 0xe6546b64) % U32
    bmix h1 rest
  | h1, [b0, b1, b2] => h1 ^^^ mixK1 ((b2.val <<< 16) ^^^ (b1.val <<< 8) ^^^ b0.val)
  | h1, [b0, b1] => h1 ^^^ mixK1 ((b1.val <<< 8) ^^^ b0.val)
  | h1, [b0] => h1 ^^^ mixK1 b0.val
  | h1, [] => h1

/-- Final avalanche of MurmurHash3 on a 32-bit word. -/
def fmix32 (h : Nat) : Nat :=
  let h := h ^^^ (h >>> 16)
  let h := (h * 0x85ebca6b) % U32
  let h := h ^^^ (h >>> 13)
  let h := (h * 0xc2b2ae35) % U32
  h ^^^ (h >>> 16)

/-- MurmurHash3 (x86, 32 bit) of `data` with seed `seed`. -/
def murmur3_32 (seed : Nat) (data : Key) : Nat :=
  fmix32 ((bmix (seed % U32) data) ^^^ (data.length % U32)) % U32

/-! ## `hash.Hash32` -/

/-- A `hash.Hash32` made by `murmur3.New32WithSeed`: its seed and the bytes
written to it since it was made or last reset. -/
structure Hash32 where
  seed : Nat
  written : Key
  deriving DecidableEq

/-- Model of `murmur3.New32WithSeed(seed)`. -/
def New32WithSeed (seed : Nat) : Hash32 :=
  { seed := seed, written := [] }

/-- Model of `h.Write(p)`: add more bytes to the running hash. -/
def Hash32.Write (h : Hash32) (p : Key) : Hash32 :=
  { h with written := h.written ++ p }

/-- Model of `h.Sum32()`: the digest of the bytes written so far; the state is
not changed. -/
def Hash32.Sum32 (h : Hash32) : Nat :=
  murmur3_32 h.seed h.written

/-- Model of `h.Reset()`: back to the state `New32WithSeed` made. -/
def Hash32.Reset (h : Hash32) : Hash32 :=
  { h with written := [] }

/-! ## The hash-function set -/

/-- The struct `HashFns`: the hash functions and their number. -/
structure HashFns where
  mHasherFns : List Hash32
  size : Nat
  deriving DecidableEq

/-- The conversion `uint32(t)` of an `int64`: the low 32 bits. -/
def toUint32 (t : Int) : Nat :=
  (t % (U32 : Int)).toNat

/-- The seed computed in iteration `i` of `generateHashFns`,
`uint32(time.Now().UnixNano()) + i` in `uint32` arithmetic, where `t` is the
reading of the clock in that iteration. -/
def seedOf (t : Int) (i : Nat) : Nat :=
  (toUint32 t + i) % U32

/-- The loop of `generateHashFns`, with `n` iterations left (`n = size - i`),
counter `i` and the slice built so far; `clock i` is the value that
`time.Now().UnixNano()` returns in iteration `i`. -/
def generateHashFns.loop (clock : Nat → Int) : Nat → Nat → List Hash32 → List Hash32
  | 0, _, mHasherFns => mHasherFns
  | n + 1, i, mHasherFns =>
    let seed := seedOf (clock i) i
    generateHashFns.loop clock n (i + 1) (mHasherFns ++ [New32WithSeed seed])

/-- The function `generateHashFns(size)`. -/
def generateHashFns (clock : Nat → Int) (size : Nat) : HashFns :=
  { mHasherFns := generateHashFns.loop clock size 0 [], size := size }

/-- The loop of `murmurHash`, with `n` iterations left (`n = sizeHashFns - i`),
counter `i`, the indices appended so far and the current state of the hash
functions.  `hashFns.mHasherFns[i]` panics when `i` is out of range, and
`% filterSize` panics when `filterSize` is zero, after the `Write`. -/
def murmurHash.loop (key : Key) (filterSize : Nat) :
    Nat → Nat → List Nat → HashFns → Outcome HashFns (List Nat)
  | 0, _, idxs, hashFns => .ok idxs hashFns
  | n + 1, i, idxs, hashFns =>
    match hashFns.mHasherFns[i]? with
    | none => .panic .indexOutOfRange hashFns
    | some h =>
      let h := h.Write key
      let hashFns := { hashFns with mHasherFns := hashFns.mHasherFns.set i h }
      if filterSize = 0 then .panic .divideByZero hashFns
      else
        let idxs := idxs ++ [h.Sum32 % filterSize]
        let hashFns := { hashFns with mHasherFns := hashFns.mHasherFns.set i h.Reset }
        murmurHash.loop key filterSize n (i + 1) idxs hashFns

/-- The function `murmurHash(key, filterSize, hashFns)`: the indices, and the hash
functions as the call leaves them. -/
def murmurHash (key : Key) (filterSize : Nat) (hashFns : HashFns) :
    Outcome HashFns (List Nat) :=
  murmurHash.loop key filterSize hashFns.size 0 [] hashFns

/-! ## The filter -/

end BloomFilter

/-- The struct `BloomFilter`: the packed bits, one `uint8` per list element, and
the number of bits. -/
structure BloomFilter where
  filter : List Nat
  size : Nat
  deriving DecidableEq

namespace BloomFilter

/-- The function `NewBloomFilter(size)`; `size + 7` is a `uint32` sum. -/
def NewBloomFilter (size : Nat) : BloomFilter :=
  { filter := List.replicate ((size + 7) % U32 / 8) 0, size := size }

/-- The `uint8` value of `1 << bitIdx`. -/
def bitMask (bitIdx : Nat) : Nat :=
  (1 <<< bitIdx) % 256

/-- The loop of `Add` over the indices `idxs[i], idxs[i+1], ...` still to do, on
the storage `filter`; on an index outside the storage it panics and gives the
storage as it then is. -/
def Add.loop : List Nat → List Nat → Except (List Nat) (List Nat)
  | [], filter => .ok filter
  | idx :: idxs, filter =>
    let arrayIdx := idx / 8
    let bitIdx := idx % 8
    match filter[arrayIdx]? with
    | none => .error filter
    | some x => Add.loop idxs (filter.set arrayIdx ((x ||| bitMask bitIdx) % 256))

/-- The method `b.Add(key, hashFns)`. -/
def Add (b : BloomFilter) (key : Key) (hashFns : HashFns) :
    Outcome (BloomFilter × HashFns) Unit :=
  match murmurHash key b.size hashFns with
  | .panic why hashFns => .panic why (b, hashFns)
  | .ok idxs hashFns =>
    match Add.loop idxs b.filter with
    | .error filter => .panic .indexOutOfRange ({ b with filter := filter }, hashFns)
    | .ok filter => .ok () ({ b with filter := filter }, hashFns)

/-- The loop of `Exists` over the indices still to check: `some false` at the
first index whose bit is clear, `some true` when there is none, `none` when an
index is outside the storage (a panic). -/
def Exists.loop : List Nat → List Nat → Option Bool
  | [], _ => some true
  | idx :: idxs, filter =>
    let arrayIdx := idx / 8
    let bitIdx := idx % 8
    match filter[arrayIdx]? with
    | none => none
    | some x =>
      if !(decide ((x &&& bitMask bitIdx) % 256 > 0)) then some false
      else Exists.loop idxs filter

/-- The method `b.Exists(key, hashFns)`. -/
def Exists (b : BloomFilter) (key : Key) (hashFns : HashFns) :
    Outcome (BloomFilter × HashFns) Bool :=
  match murmurHash key b.size hashFns with
  | .panic why hashFns => .panic why (b, hashFns)
  | .ok idxs hashFns =>
    match Exists.loop idxs b.filter with
    | none => .panic .indexOutOfRange (b, hashFns)
    | some r => .ok r (b, hashFns)

/-- The insertion loop of `main`, `for _, key := range keys { bloom.Add(key, hashFns) }`:
it stops at the first `Add` that panics. -/
def addKeys : List Key → BloomFilter → HashFns → Outcome (BloomFilter × HashFns) Unit
  | [], b, hashFns => .ok () (b, hashFns)
  | key :: keys, b, hashFns =>
    match Add b key hashFns with
    | .panic why st => .panic why st
    | .ok _ (b, hashFns) => addKeys keys b hashFns

/-! ## Specification-level notions -/

/-- A hash-function set as `generateHashFns` makes it and `murmurHash` leaves it:
`size` is the number of functions and no function holds written bytes. -/
def Fresh (hashFns : HashFns) : Prop :=
  hashFns.size = hashFns.mHasherFns.length ∧ ∀ h ∈ hashFns.mHasherFns, h.written = []

instance (hashFns : HashFns) : Decidable (Fresh hashFns) := by
  unfold Fresh; infer_instance

/-- The indices of `key` for the modulus `filterSize`: one per hash function, the
digest of the key under the seed of the function, reduced modulo `filterSize`. -/
def indices (key : Key) (filterSize : Nat) (hashFns : HashFns) : List Nat :=
  hashFns.mHasherFns.map (fun h => (h.Write key).Sum32 % filterSize)

/-- Bit `p` of the packed storage: bit `p % 8` of byte `p / 8`, as `Exists` tests
it; a position outside the storage holds no set bit. -/
def getBit (filter : List Nat) (p : Nat) : Bool :=
  match filter[p / 8]? with
  | none => false
  | some x => decide ((x &&& bitMask (p % 8)) % 256 > 0)

/-- One iteration of the loop of `Add` that stays inside the storage. -/
def setBit (filter : List Nat) (idx : Nat) : List Nat :=
  match filter[idx / 8]? with
  | none => filter
  | some x => filter.set (idx / 8) ((x ||| bitMask (idx % 8)) % 256)

/-- The relation between storage and size that `NewBloomFilter` sets up for a
`uint32` size and that `Add` keeps: `(size + 7) / 8` bytes, in `uint32`
arithmetic. -/
def Built (b : BloomFilter) : Prop :=
  b.size < U32 ∧ b.filter.length = (b.size + 7) % U32 / 8

instance (b : BloomFilter) : Decidable (Built b) := by
  unfold Built; infer_instance

/-- No call on `b` with `hashFns` can panic: either there is no hash function, or
the size is not zero and every bit position below it lies in the storage. -/
def Safe (b : BloomFilter) (hashFns : HashFns) : Prop :=
  hashFns.size = 0 ∨ (b.size ≠ 0 ∧ b.size ≤ 8 * b.filter.length)

instance (b : BloomFilter) (hashFns : HashFns) : Decidable (Safe b hashFns) := by
  unfold Safe; infer_instance

/-- The states of a hash-function set that returning calls of `murmurHash`, with
any keys and moduli, lead to from the state `hashFns`. -/
inductive Reaches (hashFns : HashFns) : HashFns → Prop where
  | refl : Reaches hashFns hashFns
  | call {mid last : HashFns} (key : Key) (filterSize : Nat) (idxs : List Nat) :
      Reaches hashFns mid → murmurHash key filterSize mid = .ok idxs last →
      Reaches hashFns last

/-- The state of the mutable objects when a call stops, whether it returns or
panics. -/
def Outcome.state {σ α : Type} : Outcome σ α → σ
  | .ok _ st => st
  | .panic _ st => st

/-- Bit `p` of the packed storage is set: byte `p / 8` exists and has its bit
`p % 8` set. -/
def bitIsSet (filter : List Nat) (p : Nat) : Prop :=
  ∃ x, filter[p / 8]? = some x ∧ x.testBit (p % 8) = true

/-- A finite sequence of `Add` calls on one filter, each with its own key and
hash-function set; it stops at the first call that panics. -/
def addCalls : List (Key × HashFns) → BloomFilter → Outcome BloomFilter Unit
  | [], b => .ok () b
  | (key, hashFns) :: calls, b =>
    match Add b key hashFns with
    | .panic why (b, _) => .panic why b
    | .ok _ (b, _) => addCalls calls b

/-- The indices of all the keys of a list, in the order of the insertions. -/
def allIndices (filterSize : Nat) (hashFns : HashFns) : List Key → List Nat
  | [] => []
  | key :: keys => indices key filterSize hashFns ++ allIndices filterSize hashFns keys

/-! # Lemmas -/

/-! ## Lists -/

theorem set_of_getElem? {α : Type} (l : List α) (i : Nat) (a : α) (h : l[i]? = some a) :
    l.set i a = l := by
  apply List.ext_getElem?
  intro j
  rw [List.getElem?_set]
  by_cases hij : i = j
  · subst hij
    have hi : i < l.length := by
      by_contra hc
      rw [List.getElem?_eq_none (by omega)] at h
      exact Option.noConfusion h
    simp [hi, h]
  · simp [hij]

/-! ## Hash functions -/

theorem Hash32.reset_write (h : Hash32) (key : Key) (hw : h.written = []) :
    (h.Write key).Reset = h := by
  cases h; simp_all [Hash32.Write, Hash32.Reset]

theorem Hash32.sum32_write (h : Hash32) (key : Key) (hw : h.written = []) :
    (h.Write key).Sum32 = murmur3_32 h.seed key := by
  cases h; simp_all [Hash32.Write, Hash32.Sum32]

theorem generateHashFns.loop_eq (clock : Nat → Int) :
    ∀ (n i : Nat) (acc : List Hash32),
      generateHashFns.loop clock n i acc
        = acc ++ (List.range n).map (fun j => New32WithSeed (seedOf (clock (i + j)) (i + j))) := by
  intro n
  induction n with
  | zero => intro i acc; simp [generateHashFns.loop]
  | succ n ih =>
    intro i acc
    rw [generateHashFns.loop, ih, List.range_succ_eq_map]
    simp [List.map_map, Function.comp_def, Nat.add_assoc, Nat.add_comm 1]

theorem generateHashFns_mHasherFns (clock : Nat → Int) (size : Nat) :
    (generateHashFns clock size).mHasherFns
      = (List.range size).map (fun i => New32WithSeed (seedOf (clock i) i)) := by
  simp [generateHashFns, generateHashFns.loop_eq]

theorem generateHashFns_fresh (clock : Nat → Int) (size : Nat) :
    Fresh (generateHashFns clock size) := by
  refine ⟨?_, ?_⟩
  · rw [generateHashFns_mHasherFns]; simp [generateHashFns]
  · rw [generateHashFns_mHasherFns]
    intro h hh
    simp only [List.mem_map] at hh
    obtain ⟨i, -, rfl⟩ := hh
    rfl

theorem murmurHash.loop_fresh (key : Key) (filterSize : Nat) (hpos : filterSize ≠ 0) :
    ∀ (n i : Nat) (idxs : List Nat) (hashFns : HashFns),
      (∀ h ∈ hashFns.mHasherFns, h.written = []) → i + n = hashFns.mHasherFns.length →
      murmurHash.loop key filterSize n i idxs hashFns
        = .ok (idxs ++ (hashFns.mHasherFns.drop i).map
            (fun h => (h.Write key).Sum32 % filterSize)) hashFns := by
  intro n
  induction n with
  | zero =>
    intro i idxs hashFns _ hlen
    have : hashFns.mHasherFns.drop i = [] := List.drop_eq_nil_of_le (by omega)
    simp [murmurHash.loop, this]
  | succ n ih =>
    intro i idxs hashFns hw hlen
    have hi : i < hashFns.mHasherFns.length := by omega
    have hget : hashFns.mHasherFns[i]? = some hashFns.mHasherFns[i] := List.getElem?_eq_getElem hi
    have hwi : (hashFns.mHasherFns[i]).written = [] := hw _ (List.getElem_mem hi)
    have hset : (hashFns.mHasherFns.set i (hashFns.mHasherFns[i].Write key)).set i
        ((hashFns.mHasherFns[i].Write key).Reset) = hashFns.mHasherFns := by
      rw [List.set_set, Hash32.reset_write _ _ hwi]
      exact set_of_getElem? _ _ _ hget
    rw [murmurHash.loop, hget]
    simp only [hpos, if_false, hset]
    rw [ih (i + 1) _ hashFns hw (by omega)]
    rw [List.drop_eq_getElem_cons hi]
    simp only [List.map_cons, List.append_assoc, List.singleton_append]

theorem murmurHash_fresh (key : Key) (filterSize : Nat) (hashFns : HashFns)
    (hf : Fresh hashFns) (hpos : filterSize ≠ 0) :
    murmurHash key filterSize hashFns = .ok (indices key filterSize hashFns) hashFns := by
  have h := murmurHash.loop_fresh key filterSize hpos hashFns.size 0 [] hashFns hf.2
    (by rw [hf.1]; omega)
  simpa [murmurHash, indices] using h

theorem murmurHash_nil (key : Key) (filterSize : Nat) (hashFns : HashFns)
    (hk : hashFns.size = 0) :
    murmurHash key filterSize hashFns = .ok [] hashFns := by
  simp [murmurHash, hk, murmurHash.loop]

theorem murmurHash_zero (key : Key) (hashFns : HashFns) (hf : Fresh hashFns)
    (hk : hashFns.size ≠ 0) :
    ∃ st, murmurHash key 0 hashFns = .panic .divideByZero st := by
  obtain ⟨n, hn⟩ := Nat.exists_eq_succ_of_ne_zero hk
  have hi : 0 < hashFns.mHasherFns.length := by rw [← hf.1]; omega
  have hget : hashFns.mHasherFns[0]? = some hashFns.mHasherFns[0] := List.getElem?_eq_getElem hi
  rw [murmurHash, hn, murmurHash.loop, hget]
  exact ⟨_, rfl⟩

theorem indices_length (key : Key) (filterSize : Nat) (hashFns : HashFns) :
    (indices key filterSize hashFns).length = hashFns.mHasherFns.length := by
  simp [indices]

theorem indices_lt (key : Key) (filterSize : Nat) (hashFns : HashFns) (hpos : filterSize ≠ 0) :
    ∀ idx ∈ indices key filterSize hashFns, idx < filterSize := by
  intro idx hidx
  simp only [indices, List.mem_map] at hidx
  obtain ⟨h, -, rfl⟩ := hidx
  exact Nat.mod_lt _ (Nat.pos_of_ne_zero hpos)

/-! ## Bytes -/

theorem bitMask_eq (b : Nat) (hb : b < 8) : bitMask b = 2 ^ b := by
  unfold bitMask
  rw [Nat.one_shiftLeft]
  apply Nat.mod_eq_of_lt
  calc 2 ^ b ≤ 2 ^ 7 := Nat.pow_le_pow_right (by decide) (by omega)
    _ < 256 := by decide

theorem testBit_bitMask (b i : Nat) : (bitMask b).testBit i = (decide (i < 8) && decide (b = i)) := by
  unfold bitMask
  rw [Nat.one_shiftLeft, show (256 : Nat) = 2 ^ 8 from rfl, Nat.testBit_mod_two_pow,
    Nat.testBit_two_pow]

theorem testBit_orMask (x b i : Nat) :
    ((x ||| bitMask b) % 256).testBit i
      = (decide (i < 8) && (x.testBit i || decide (b = i))) := by
  rw [show (256 : Nat) = 2 ^ 8 from rfl, Nat.testBit_mod_two_pow, Nat.testBit_or,
    testBit_bitMask]
  cases decide (i < 8) <;> simp

theorem orMask_idem (x b : Nat) :
    ((x ||| bitMask b) % 256 ||| bitMask b) % 256 = (x ||| bitMask b) % 256 := by
  apply Nat.eq_of_testBit_eq
  intro i
  rw [testBit_orMask, testBit_orMask]
  cases decide (i < 8) <;> cases x.testBit i <;> cases decide (b = i) <;> rfl

theorem orMask_comm (x a b : Nat) :
    ((x ||| bitMask a) % 256 ||| bitMask b) % 256
      = ((x ||| bitMask b) % 256 ||| bitMask a) % 256 := by
  apply Nat.eq_of_testBit_eq
  intro i
  rw [testBit_orMask, testBit_orMask, testBit_orMask, testBit_orMask]
  cases decide (i < 8) <;> cases x.testBit i <;> cases decide (a = i) <;>
    cases decide (b = i) <;> rfl

theorem andMask_pos (x b : Nat) (hb : b < 8) :
    decide ((x &&& bitMask b) % 256 > 0) = x.testBit b := by
  have hlt : x &&& bitMask b < 256 := by
    have h1 : x &&& bitMask b ≤ bitMask b := Nat.and_le_right
    have h2 : bitMask b < 256 := Nat.mod_lt _ (by decide)
    omega
  rw [Nat.mod_eq_of_lt hlt]
  cases hx : x.testBit b
  · have : x &&& bitMask b = 0 := by
      apply Nat.eq_of_testBit_eq
      intro i
      rw [Nat.testBit_and, testBit_bitMask, Nat.zero_testBit]
      by_cases hbi : b = i
      · subst hbi; simp [hx]
      · simp [hbi]
    simp [this]
  · have : (x &&& bitMask b).testBit b = true := by
      rw [Nat.testBit_and, testBit_bitMask, hx]; simp [hb]
    have hne : x &&& bitMask b ≠ 0 := by
      intro h0; rw [h0, Nat.zero_testBit] at this; exact Bool.noConfusion this
    simp; omega

/-! ## The packed storage -/

theorem setBit_length (filter : List Nat) (idx : Nat) :
    (setBit filter idx).length = filter.length := by
  unfold setBit
  split <;> simp

theorem foldl_setBit_length (idxs : List Nat) (filter : List Nat) :
    (idxs.foldl setBit filter).length = filter.length := by
  induction idxs generalizing filter with
  | nil => rfl
  | cons idx idxs ih => rw [List.foldl_cons, ih, setBit_length]

theorem setBit_idem (filter : List Nat) (a : Nat) :
    setBit (setBit filter a) a = setBit filter a := by
  unfold setBit
  cases h : filter[a / 8]? with
  | none => simp [h]
  | some x =>
    have ha : a / 8 < filter.length := by
      by_contra hc
      rw [List.getElem?_eq_none (by omega)] at h
      exact Option.noConfusion h
    simp [List.getElem?_set_self ha, orMask_idem]

theorem setBit_comm (filter : List Nat) (a b : Nat) :
    setBit (setBit filter a) b = setBit (setBit filter b) a := by
  unfold setBit
  cases ha : filter[a / 8]? with
  | none =>
    cases hb : filter[b / 8]? with
    | none => simp [ha, hb]
    | some y =>
      have : (filter.set (b / 8) ((y ||| bitMask (b % 8)) % 256))[a / 8]? = none := by
        rw [List.getElem?_eq_none_iff] at ha ⊢
        simpa using ha
      simp [ha, this]
  | some x =>
    have hla : a / 8 < filter.length := by
      by_contra hc
      rw [List.getElem?_eq_none (by omega)] at ha
      exact Option.noConfusion ha
    cases hb : filter[b / 8]? with
    | none =>
      have : (filter.set (a / 8) ((x ||| bitMask (a % 8)) % 256))[b / 8]? = none := by
        rw [List.getElem?_eq_none_iff] at hb ⊢
        simpa using hb
      simp [ha, hb, this]
    | some y =>
      have hlb : b / 8 < filter.length := by
        by_contra hc
        rw [List.getElem?_eq_none (by omega)] at hb
        exact Option.noConfusion hb
      by_cases hab : a / 8 = b / 8
      · have hxy : x = y := by
          rw [hab] at ha; rw [ha] at hb; exact Option.some.inj hb
        subst hxy
        simp only [hab, List.getElem?_set_self hlb, List.set_set]
        rw [orMask_comm]
      · have hba : b / 8 ≠ a / 8 := fun h => hab h.symm
        simp only [List.getElem?_set_ne hab, List.getElem?_set_ne hba, ha, hb]
        exact List.set_comm _ _ _ hab

theorem foldl_setBit_comm (idxs : List Nat) (filter : List Nat) (a : Nat) :
    idxs.foldl setBit (setBit filter a) = setBit (idxs.foldl setBit filter) a := by
  induction idxs generalizing filter with
  | nil => rfl
  | cons idx idxs ih => rw [List.foldl_cons, List.foldl_cons, setBit_comm, ih]

theorem foldl_setBit_idem (idxs : List Nat) (filter : List Nat) :
    idxs.foldl setBit (idxs.foldl setBit filter) = idxs.foldl setBit filter := by
  induction idxs generalizing filter with
  | nil => rfl
  | cons idx idxs ih =>
    rw [List.foldl_cons, List.foldl_cons,
      foldl_setBit_comm idxs (idxs.foldl setBit (setBit filter idx)) idx, ih,
      foldl_setBit_comm idxs filter idx, setBit_idem]

theorem getBit_eq_testBit (filter : List Nat) (p x : Nat) (h : filter[p / 8]? = some x) :
    getBit filter p = x.testBit (p % 8) := by
  unfold getBit
  rw [h]
  exact andMask_pos x (p % 8) (Nat.mod_lt _ (by decide))

theorem getBit_setBit (filter : List Nat) (idx p : Nat) (hidx : idx / 8 < filter.length) :
    getBit (setBit filter idx) p = (getBit filter p || decide (idx = p)) := by
  have hget : filter[idx / 8]? = some filter[idx / 8] := List.getElem?_eq_getElem hidx
  have hset : setBit filter idx
      = filter.set (idx / 8) ((filter[idx / 8] ||| bitMask (idx % 8)) % 256) := by
    unfold setBit; rw [hget]
  by_cases hq : idx / 8 = p / 8
  · have h1 : (setBit filter idx)[p / 8]?
        = some ((filter[idx / 8] ||| bitMask (idx % 8)) % 256) := by
      rw [hset, ← hq]; exact List.getElem?_set_self hidx
    have hget1 : filter[p / 8]? = some filter[idx / 8] := by rw [← hq]; exact hget
    rw [getBit_eq_testBit _ _ _ h1, getBit_eq_testBit filter p _ hget1, testBit_orMask]
    have hp8 : p % 8 < 8 := Nat.mod_lt _ (by decide)
    have : decide (idx % 8 = p % 8) = decide (idx = p) := by
      apply decide_eq_decide.mpr
      constructor
      · intro h; omega
      · intro h; rw [h]
    simp [hp8, this]
  · have hne : idx ≠ p := fun h => hq (by rw [h])
    have h1 : (setBit filter idx)[p / 8]? = filter[p / 8]? := by
      rw [hset]; exact List.getElem?_set_ne hq
    unfold getBit
    rw [h1]
    simp [hne]

theorem getBit_setBit_of_getBit (filter : List Nat) (idx p : Nat)
    (h : getBit filter p = true) : getBit (setBit filter idx) p = true := by
  by_cases hidx : idx / 8 < filter.length
  · rw [getBit_setBit _ _ _ hidx, h]; rfl
  · have : setBit filter idx = filter := by
      unfold setBit
      rw [List.getElem?_eq_none (by omega)]
    rw [this, h]

theorem getBit_foldl_setBit (idxs : List Nat) (filter : List Nat) (p : Nat)
    (hin : ∀ idx ∈ idxs, idx / 8 < filter.length) :
    getBit (idxs.foldl setBit filter) p = (getBit filter p || decide (p ∈ idxs)) := by
  induction idxs generalizing filter with
  | nil => simp
  | cons idx idxs ih =>
    have h0 : idx / 8 < filter.length := hin idx (List.mem_cons_self _ _)
    rw [List.foldl_cons, ih, getBit_setBit _ _ _ h0]
    · by_cases h1 : idx = p
      · subst h1; simp
      · have h2 : ¬ p = idx := fun h => h1 h.symm
        simp [h1, h2]
    · intro j hj
      rw [setBit_length]
      exact hin j (List.mem_cons_of_mem _ hj)

theorem Add.loop_ok (idxs : List Nat) (filter : List Nat)
    (hin : ∀ idx ∈ idxs, idx / 8 < filter.length) :
    Add.loop idxs filter = .ok (idxs.foldl setBit filter) := by
  induction idxs generalizing filter with
  | nil => rfl
  | cons idx idxs ih =>
    have h0 : idx / 8 < filter.length := hin idx (List.mem_cons_self _ _)
    have hget : filter[idx / 8]? = some filter[idx / 8] := List.getElem?_eq_getElem h0
    have hset : setBit filter idx
        = filter.set (idx / 8) ((filter[idx / 8] ||| bitMask (idx % 8)) % 256) := by
      unfold setBit; rw [hget]
    rw [Add.loop, hget, List.foldl_cons, hset]
    apply ih
    intro j hj
    rw [List.length_set]
    exact hin j (List.mem_cons_of_mem _ hj)

theorem Add.loop_error (idxs : List Nat) (filter : List Nat)
    (hout : ∃ idx ∈ idxs, filter.length ≤ idx / 8) :
    ∃ filter1, Add.loop idxs filter = .error filter1 ∧ filter1.length = filter.length := by
  induction idxs generalizing filter with
  | nil => obtain ⟨idx, hmem, -⟩ := hout; cases hmem
  | cons idx idxs ih =>
    by_cases h0 : idx / 8 < filter.length
    · have hget : filter[idx / 8]? = some filter[idx / 8] := List.getElem?_eq_getElem h0
      rw [Add.loop, hget]
      obtain ⟨j, hj, hjl⟩ := hout
      have hj1 : j ∈ idxs := by
        rcases List.mem_cons.mp hj with h | h
        · subst h; omega
        · exact h
      obtain ⟨f1, hf1, hl1⟩ := ih (filter.set (idx / 8)
        ((filter[idx / 8] ||| bitMask (idx % 8)) % 256)) ⟨j, hj1, by simpa using hjl⟩
      exact ⟨f1, hf1, by simpa using hl1⟩
    · rw [Add.loop, List.getElem?_eq_none (by omega)]
      exact ⟨filter, rfl, rfl⟩

theorem Exists.loop_true_iff (idxs : List Nat) (filter : List Nat) :
    Exists.loop idxs filter = some true ↔ ∀ idx ∈ idxs, getBit filter idx = true := by
  induction idxs with
  | nil => simp [Exists.loop]
  | cons idx idxs ih =>
    rw [Exists.loop]
    cases hget : filter[idx / 8]? with
    | none =>
      have : getBit filter idx = false := by unfold getBit; rw [hget]
      simp [this]
    | some x =>
      have hb : getBit filter idx = decide ((x &&& bitMask (idx % 8)) % 256 > 0) := by
        unfold getBit; rw [hget]
      simp only [List.mem_cons, forall_eq_or_imp, hb]
      cases hd : decide ((x &&& bitMask (idx % 8)) % 256 > 0)
      · simp
      · simpa using ih

theorem Exists.loop_some (idxs : List Nat) (filter : List Nat)
    (hin : ∀ idx ∈ idxs, idx / 8 < filter.length) :
    Exists.loop idxs filter = some (idxs.all (getBit filter)) := by
  induction idxs with
  | nil => rfl
  | cons idx idxs ih =>
    have h0 : idx / 8 < filter.length := hin idx (List.mem_cons_self _ _)
    have hget : filter[idx / 8]? = some filter[idx / 8] := List.getElem?_eq_getElem h0
    have hb : getBit filter idx
        = decide ((filter[idx / 8] &&& bitMask (idx % 8)) % 256 > 0) := by
      unfold getBit; rw [hget]
    rw [Exists.loop, hget, List.all_cons, hb]
    by_cases hpos : (filter[idx / 8] &&& bitMask (idx % 8)) % 256 > 0
    · simp only [hpos, decide_True, Bool.not_true, Bool.true_and]
      exact ih (fun j hj => hin j (List.mem_cons_of_mem _ hj))
    · simp [hpos]

theorem Exists.loop_none (idxs : List Nat) (filter : List Nat) (h : filter = [])
    (hne : idxs ≠ []) : Exists.loop idxs filter = none := by
  subst h
  cases idxs with
  | nil => exact absurd rfl hne
  | cons idx idxs => simp [Exists.loop]

/-! ## `Add` and `Exists` on a filter whose storage covers its size -/

theorem U32_eq : U32 = 4294967296 := by decide

theorem indices_nil (key : Key) (filterSize : Nat) (hashFns : HashFns)
    (hf : Fresh hashFns) (hk : hashFns.size = 0) : indices key filterSize hashFns = [] := by
  have : hashFns.mHasherFns = [] := List.length_eq_zero.mp (by rw [← hf.1]; exact hk)
  simp [indices, this]

theorem indices_ne_nil (key : Key) (filterSize : Nat) (hashFns : HashFns)
    (hf : Fresh hashFns) (hk : hashFns.size ≠ 0) : indices key filterSize hashFns ≠ [] := by
  intro h
  have := indices_length key filterSize hashFns
  rw [h, ← hf.1] at this
  exact hk this.symm

theorem murmurHash_safe (b : BloomFilter) (key : Key) (hashFns : HashFns)
    (hf : Fresh hashFns) (hs : Safe b hashFns) :
    murmurHash key b.size hashFns = .ok (indices key b.size hashFns) hashFns
      ∧ ∀ idx ∈ indices key b.size hashFns, idx / 8 < b.filter.length := by
  rcases hs with hk | ⟨hne, hle⟩
  · rw [murmurHash_nil key b.size hashFns hk, indices_nil key b.size hashFns hf hk]
    exact ⟨rfl, fun _ h => nomatch h⟩
  · refine ⟨murmurHash_fresh key b.size hashFns hf hne, ?_⟩
    intro idx hidx
    have := indices_lt key b.size hashFns hne idx hidx
    omega

theorem Add_safe (b : BloomFilter) (key : Key) (hashFns : HashFns)
    (hf : Fresh hashFns) (hs : Safe b hashFns) :
    Add b key hashFns
      = .ok () ({ b with filter := (indices key b.size hashFns).foldl setBit b.filter },
          hashFns) := by
  obtain ⟨hm, hin⟩ := murmurHash_safe b key hashFns hf hs
  simp only [Add, hm, Add.loop_ok _ _ hin]

theorem Exists_safe (b : BloomFilter) (key : Key) (hashFns : HashFns)
    (hf : Fresh hashFns) (hs : Safe b hashFns) :
    Exists b key hashFns
      = .ok ((indices key b.size hashFns).all (getBit b.filter)) (b, hashFns) := by
  obtain ⟨hm, hin⟩ := murmurHash_safe b key hashFns hf hs
  simp only [Exists, hm, Exists.loop_some _ _ hin]

theorem Safe_of_eq (b b1 : BloomFilter) (hashFns : HashFns) (hs : Safe b hashFns)
    (hsize : b1.size = b.size) (hlen : b1.filter.length = b.filter.length) :
    Safe b1 hashFns := by
  rcases hs with hk | ⟨hne, hle⟩
  · exact Or.inl hk
  · exact Or.inr ⟨by rw [hsize]; exact hne, by rw [hsize, hlen]; exact hle⟩

theorem addKeys_safe (keys : List Key) (b : BloomFilter) (hashFns : HashFns)
    (hf : Fresh hashFns) (hs : Safe b hashFns) :
    ∃ b1, addKeys keys b hashFns = .ok () (b1, hashFns) ∧ b1.size = b.size
      ∧ b1.filter.length = b.filter.length
      ∧ ∀ p, getBit b.filter p = true → getBit b1.filter p = true := by
  induction keys generalizing b with
  | nil => exact ⟨b, rfl, rfl, rfl, fun _ h => h⟩
  | cons key keys ih =>
    have hlen : ((indices key b.size hashFns).foldl setBit b.filter).length
        = b.filter.length := foldl_setBit_length _ _
    obtain ⟨b1, h1, h2, h3, h4⟩ :=
      ih { b with filter := (indices key b.size hashFns).foldl setBit b.filter }
        (Safe_of_eq b _ hashFns hs rfl hlen)
    refine ⟨b1, ?_, h2, by rw [h3, hlen], ?_⟩
    · simp only [addKeys, Add_safe b key hashFns hf hs, h1]
    · intro p hp
      apply h4
      rw [getBit_foldl_setBit _ _ _ (murmurHash_safe b key hashFns hf hs).2, hp]
      rfl

theorem NewBloomFilter_built (size : Nat) (h : size < U32) : Built (NewBloomFilter size) := by
  simp [Built, NewBloomFilter, h]

theorem NewBloomFilter_safe (size : Nat) (hashFns : HashFns) (h1 : 1 ≤ size)
    (h2 : size + 7 < U32) : Safe (NewBloomFilter size) hashFns := by
  right
  rw [U32_eq] at h2
  simp only [NewBloomFilter, List.length_replicate, U32_eq]
  omega

theorem Built_safe (b : BloomFilter) (hashFns : HashFns) (hb : Built b)
    (hlen : b.filter ≠ []) : Safe b hashFns := by
  right
  obtain ⟨h1, h2⟩ := hb
  have h3 : 0 < b.filter.length := List.length_pos.mpr hlen
  rw [U32_eq] at h1 h2
  omega

theorem getBit_replicate_zero (n p : Nat) : getBit (List.replicate n 0) p = false := by
  unfold getBit
  cases h : (List.replicate n 0)[p / 8]? with
  | none => rfl
  | some x =>
    have hx : x = 0 := by
      obtain ⟨hlt, heq⟩ := List.getElem?_eq_some_iff.mp h
      rw [← heq]
      simp
    subst hx
    simp

theorem murmurHash_fresh_cases (key : Key) (filterSize : Nat) (hashFns : HashFns)
    (hf : Fresh hashFns) :
    murmurHash key filterSize hashFns = .ok (indices key filterSize hashFns) hashFns
      ∨ (filterSize = 0 ∧ hashFns.size ≠ 0
          ∧ ∃ st, murmurHash key filterSize hashFns = .panic .divideByZero st) := by
  by_cases hm : filterSize = 0
  · by_cases hk : hashFns.size = 0
    · left
      rw [murmurHash_nil key filterSize hashFns hk, indices_nil key filterSize hashFns hf hk]
    · right
      subst hm
      exact ⟨rfl, hk, murmurHash_zero key hashFns hf hk⟩
  · exact Or.inl (murmurHash_fresh key filterSize hashFns hf hm)

theorem Reaches_eq (hashFns last : HashFns) (hf : Fresh hashFns) (hr : Reaches hashFns last) :
    last = hashFns := by
  induction hr with
  | refl => rfl
  | call key filterSize idxs _ hcall ih =>
    subst ih
    rcases murmurHash_fresh_cases key filterSize _ hf with h | ⟨-, -, st, h⟩
    · rw [h] at hcall
      injection hcall with _ h2
      exact h2.symm
    · rw [h] at hcall
      exact Outcome.noConfusion hcall

/-! # The claims -/

/-! ## C1: no false negatives -/

/-- No false negatives where the storage is allocated in full: on the filter that
`NewBloomFilter(size)` returns for `1 ≤ size ≤ 2^32 - 8`, with a hash-function
set in the state `generateHashFns` makes, the insertion of `K` and then of any
further keys returns, and `Exists(K)` then returns true. -/
theorem no_false_negatives_in_range (size : Nat) (hashFns : HashFns) (K : Key)
    (keys : List Key) (h1 : 1 ≤ size) (h2 : size + 7 < U32) (hf : Fresh hashFns) :
    ∃ b, addKeys (K :: keys) (NewBloomFilter size) hashFns = .ok () (b, hashFns)
      ∧ Exists b K hashFns = .ok true (b, hashFns) := by
  have hs := NewBloomFilter_safe size hashFns h1 h2
  have hadd := Add_safe (NewBloomFilter size) K hashFns hf hs
  have hin := (murmurHash_safe (NewBloomFilter size) K hashFns hf hs).2
  have hlen := foldl_setBit_length (indices K (NewBloomFilter size).size hashFns)
    (NewBloomFilter size).filter
  have hs1 := Safe_of_eq (NewBloomFilter size)
    { NewBloomFilter size with
      filter := (indices K (NewBloomFilter size).size hashFns).foldl setBit
        (NewBloomFilter size).filter } hashFns hs rfl hlen
  obtain ⟨b, hb, hsz, hl, hbits⟩ := addKeys_safe keys _ hashFns hf hs1
  refine ⟨b, ?_, ?_⟩
  · simp only [addKeys, hadd, hb]
  · have hsb : Safe b hashFns := Safe_of_eq _ b hashFns hs1 hsz hl
    rw [Exists_safe b K hashFns hf hsb]
    have hall : (indices K b.size hashFns).all (getBit b.filter) = true := by
      rw [List.all_eq_true]
      intro idx hidx
      apply hbits
      have hsz1 : b.size = (NewBloomFilter size).size := hsz
      rw [hsz1] at hidx
      show getBit ((indices K (NewBloomFilter size).size hashFns).foldl setBit
        (NewBloomFilter size).filter) idx = true
      rw [getBit_foldl_setBit _ _ _ hin]
      simp [hidx]
    rw [hall]

/-- C1, at the failing input: on the filter `NewBloomFilter(4294967295)`, whose
storage is empty because `size + 7` wraps around, the insertion of the key `"a"`
with one hash function panics with an index out of range (on the only index,
1009084850); the insertions never complete and no `Exists` returns true. -/
theorem add_panics_at_max_size :
    (NewBloomFilter 4294967295).filter = []
      ∧ indices [97] 4294967295 (generateHashFns (fun _ => 0) 1) = [1009084850]
      ∧ addKeys [[97]] (NewBloomFilter 4294967295) (generateHashFns (fun _ => 0) 1)
          = .panic .indexOutOfRange
              (NewBloomFilter 4294967295, generateHashFns (fun _ => 0) 1) := by
  decide

/-! ## C2: monotonicity of `Exists` -/

/-- C2: on a filter with the storage `NewBloomFilter` gives it and a hash-function
set in its reset state, once `Exists(K, H)` returns true, every finite sequence
of further `Add` calls with `H` returns, and `Exists(K, H)` returns true on the
filter they leave. -/
theorem exists_monotone (b : BloomFilter) (hashFns : HashFns) (K : Key) (keys : List Key)
    (hb : Built b) (hf : Fresh hashFns) (hex : Exists b K hashFns = .ok true (b, hashFns)) :
    ∃ b1, addKeys keys b hashFns = .ok () (b1, hashFns)
      ∧ Exists b1 K hashFns = .ok true (b1, hashFns) := by
  have hs : Safe b hashFns := by
    by_cases hk : hashFns.size = 0
    · exact Or.inl hk
    · apply Built_safe b hashFns hb
      intro hnil
      rcases murmurHash_fresh_cases K b.size hashFns hf with hm | ⟨-, -, st, hm⟩
      · have hne := indices_ne_nil K b.size hashFns hf hk
        have hnone := Exists.loop_none _ _ hnil hne
        simp only [Exists, hm, hnone] at hex
        exact Outcome.noConfusion hex
      · simp only [Exists, hm] at hex
        exact Outcome.noConfusion hex
  obtain ⟨b1, h1, hsz, hl, hbits⟩ := addKeys_safe keys b hashFns hf hs
  refine ⟨b1, h1, ?_⟩
  have hs1 : Safe b1 hashFns := Safe_of_eq b b1 hashFns hs hsz hl
  rw [Exists_safe b K hashFns hf hs] at hex
  rw [Exists_safe b1 K hashFns hf hs1, hsz]
  have h0 : (indices K b.size hashFns).all (getBit b.filter) = true := by
    injection hex
  have h2 : (indices K b.size hashFns).all (getBit b1.filter) = true := by
    rw [List.all_eq_true] at h0 ⊢
    exact fun idx hidx => hbits idx (h0 idx hidx)
  rw [h2]

/-- Witness of C2: the one-byte filter with all bits set, one hash function, the
key `"a"` and a further insertion of the key `"b"`. -/
theorem exists_monotone_witness :
    Built { filter := [255], size := 8 } ∧ Fresh (generateHashFns (fun _ => 0) 1)
      ∧ Exists { filter := [255], size := 8 } [97] (generateHashFns (fun _ => 0) 1)
        = .ok true ({ filter := [255], size := 8 }, generateHashFns (fun _ => 0) 1)
      ∧ ∃ b1, addKeys [[98]] { filter := [255], size := 8 } (generateHashFns (fun _ => 0) 1)
          = .ok () (b1, generateHashFns (fun _ => 0) 1)
        ∧ Exists b1 [97] (generateHashFns (fun _ => 0) 1)
          = .ok true (b1, generateHashFns (fun _ => 0) 1) :=
  ⟨by decide, by decide, by decide,
    exists_monotone { filter := [255], size := 8 } (generateHashFns (fun _ => 0) 1) [97]
      [[98]] (by decide) (by decide) (by decide)⟩

/-! ## C3: idempotence of `Add` -/

/-- C3: with a hash-function set in its reset state, running `Add(K, H)` twice
gives the same outcome as running it once: the same storage bytes, size and
hash-function state when `Add` returns, the same panic when it does not; and
`Add` does return when the size is not zero and lies within the storage. -/
theorem add_idempotent (b : BloomFilter) (hashFns : HashFns) (K : Key)
    (hf : Fresh hashFns) :
    addKeys [K, K] b hashFns = addKeys [K] b hashFns
      ∧ (b.size ≠ 0 → b.size ≤ 8 * b.filter.length →
          ∃ b1, addKeys [K] b hashFns = .ok () (b1, hashFns)) := by
  constructor
  · rcases murmurHash_fresh_cases K b.size hashFns hf with hm | ⟨-, -, st, hm⟩
    · by_cases hin : ∀ idx ∈ indices K b.size hashFns, idx / 8 < b.filter.length
      · have hin1 : ∀ idx ∈ indices K b.size hashFns,
            idx / 8 < ((indices K b.size hashFns).foldl setBit b.filter).length := by
          intro idx hidx
          rw [foldl_setBit_length]
          exact hin idx hidx
        simp only [addKeys, Add, hm, Add.loop_ok _ _ hin, Add.loop_ok _ _ hin1,
          foldl_setBit_idem]
      · have hout : ∃ idx ∈ indices K b.size hashFns, b.filter.length ≤ idx / 8 := by
          by_contra hc
          apply hin
          intro idx hidx
          by_contra hlt
          exact hc ⟨idx, hidx, by omega⟩
        obtain ⟨f1, hf1, -⟩ := Add.loop_error _ _ hout
        simp only [addKeys, Add, hm, hf1]
    · simp only [addKeys, Add, hm]
  · intro hne hle
    have hs : Safe b hashFns := Or.inr ⟨hne, hle⟩
    refine ⟨{ b with filter := (indices K b.size hashFns).foldl setBit b.filter }, ?_⟩
    simp only [addKeys, Add_safe b K hashFns hf hs]

/-- Witness of C3: the 16-bit filter, two hash functions and the key `"a"`. -/
theorem add_idempotent_witness :
    Fresh (generateHashFns (fun _ => 0) 2)
      ∧ addKeys [[97], [97]] (NewBloomFilter 16) (generateHashFns (fun _ => 0) 2)
        = addKeys [[97]] (NewBloomFilter 16) (generateHashFns (fun _ => 0) 2)
      ∧ ((NewBloomFilter 16).size ≠ 0 →
          (NewBloomFilter 16).size ≤ 8 * (NewBloomFilter 16).filter.length →
          ∃ b1, addKeys [[97]] (NewBloomFilter 16) (generateHashFns (fun _ => 0) 2)
            = .ok () (b1, generateHashFns (fun _ => 0) 2)) :=
  ⟨by decide,
    add_idempotent (NewBloomFilter 16) (generateHashFns (fun _ => 0) 2) [97] (by decide)⟩

/-! ## C4: query on a filter without insertions -/

/-- C4, counterexample: on the fresh 8-bit filter `Exists("a")` with the empty
hash-function set returns true, and on the fresh filter of size 0 `Exists("a")`
with one hash function panics on the modulus by zero instead of returning
false. -/
theorem empty_filter_query_counterexample :
    Exists (NewBloomFilter 8) [97] (generateHashFns (fun _ => 0) 0)
        = .ok true (NewBloomFilter 8, generateHashFns (fun _ => 0) 0)
      ∧ Exists (NewBloomFilter 0) [97] (generateHashFns (fun _ => 0) 1)
        = .panic .divideByZero
            (NewBloomFilter 0, { mHasherFns := [{ seed := 0, written := [97] }], size := 1 }) := by
  decide

/-- C4, amended: for `1 ≤ size ≤ 2^32 - 8`, every hash-function set with at least
one function, in its reset state, and every key, `Exists` on the filter that
`NewBloomFilter(size)` returns, with no `Add` performed, returns false. -/
theorem exists_on_new_filter (size : Nat) (hashFns : HashFns) (K : Key)
    (h1 : 1 ≤ size) (h2 : size + 7 < U32) (hf : Fresh hashFns) (hk : 1 ≤ hashFns.size) :
    Exists (NewBloomFilter size) K hashFns = .ok false (NewBloomFilter size, hashFns) := by
  have hs := NewBloomFilter_safe size hashFns h1 h2
  rw [Exists_safe _ K hashFns hf hs]
  have hne := indices_ne_nil K (NewBloomFilter size).size hashFns hf (by omega)
  have hall : (indices K (NewBloomFilter size).size hashFns).all
      (getBit (NewBloomFilter size).filter) = false := by
    cases hi : indices K (NewBloomFilter size).size hashFns with
    | nil => exact absurd hi hne
    | cons idx idxs =>
      rw [List.all_cons]
      have : getBit (NewBloomFilter size).filter idx = false := getBit_replicate_zero _ _
      rw [this]
      rfl
  rw [hall]

/-- Witness of C4 (amended): size 800, five hash functions, the key `"a"`. -/
theorem exists_on_new_filter_witness :
    1 ≤ 800 ∧ 800 + 7 < U32 ∧ Fresh (generateHashFns (fun _ => 0) 5)
      ∧ 1 ≤ (generateHashFns (fun _ => 0) 5).size
      ∧ Exists (NewBloomFilter 800) [97] (generateHashFns (fun _ => 0) 5)
        = .ok false (NewBloomFilter 800, generateHashFns (fun _ => 0) 5) :=
  ⟨by decide, by decide, by decide, by decide,
    exists_on_new_filter 800 (generateHashFns (fun _ => 0) 5) [97] (by decide) (by decide)
      (by decide) (by decide)⟩

/-! ## C5: size zero -/

/-- C5, counterexample: `NewBloomFilter(0)` does not fail, it returns a filter. -/
theorem zero_size_is_not_rejected :
    ∃ b : BloomFilter, NewBloomFilter 0 = b ∧ b.size = 0 ∧ b.filter.length = 0 :=
  ⟨NewBloomFilter 0, rfl, rfl, rfl⟩

/-- C5, amended: `NewBloomFilter(0)` returns the filter with size 0 and no byte of
storage; with the empty hash-function set this filter is usable (`Add` returns and
leaves it as it is, `Exists` returns true), and no error is signalled. -/
theorem NewBloomFilter_of_zero (clock : Nat → Int) (K : Key) :
    NewBloomFilter 0 = { filter := [], size := 0 }
      ∧ Add (NewBloomFilter 0) K (generateHashFns clock 0)
        = .ok () (NewBloomFilter 0, generateHashFns clock 0)
      ∧ Exists (NewBloomFilter 0) K (generateHashFns clock 0)
        = .ok true (NewBloomFilter 0, generateHashFns clock 0) := by
  refine ⟨by decide, rfl, rfl⟩

/-! ## C6: `Add` and `Exists` after construction -/

/-- C6, at the failing input: for `size = 4294967295` the sum `size + 7` wraps
around and the storage has no byte, so the index 1009084850 that one hash
function (seed 0) derives for the key `"a"` has `idx / 8` outside the storage,
and both `Add` and `Exists` panic with an index out of range. -/
theorem index_out_of_range_at_max_size :
    murmurHash [97] 4294967295 (generateHashFns (fun _ => 0) 1)
        = .ok [1009084850] (generateHashFns (fun _ => 0) 1)
      ∧ ¬ (1009084850 / 8 < (NewBloomFilter 4294967295).filter.length)
      ∧ Add (NewBloomFilter 4294967295) [97] (generateHashFns (fun _ => 0) 1)
        = .panic .indexOutOfRange
            (NewBloomFilter 4294967295, generateHashFns (fun _ => 0) 1)
      ∧ Exists (NewBloomFilter 4294967295) [97] (generateHashFns (fun _ => 0) 1)
        = .panic .indexOutOfRange
            (NewBloomFilter 4294967295, generateHashFns (fun _ => 0) 1) := by
  decide

/-- Where `size + 7` does not wrap: for `1 ≤ size ≤ 2^32 - 8`, every hash-function set
in its reset state and every key, each derived index has `idx / 8` inside the
storage, and both `Add` and `Exists` return. -/
theorem add_exists_return_in_range (size : Nat) (hashFns : HashFns) (K : Key)
    (h1 : 1 ≤ size) (h2 : size + 7 < U32) (hf : Fresh hashFns) :
    (∃ idxs, murmurHash K size hashFns = .ok idxs hashFns
        ∧ ∀ idx ∈ idxs, idx / 8 < (NewBloomFilter size).filter.length)
      ∧ (∃ b, Add (NewBloomFilter size) K hashFns = .ok () (b, hashFns))
      ∧ ∃ r, Exists (NewBloomFilter size) K hashFns = .ok r (NewBloomFilter size, hashFns) := by
  have hs := NewBloomFilter_safe size hashFns h1 h2
  exact ⟨⟨_, murmurHash_safe (NewBloomFilter size) K hashFns hf hs⟩,
    ⟨_, Add_safe _ K hashFns hf hs⟩, ⟨_, Exists_safe _ K hashFns hf hs⟩⟩

/-! ## C7: construction -/

/-- C7, at the failing input: `NewBloomFilter(4294967295)` keeps the size but
allocates no byte at all, where `ceil(4294967295 / 8)` is 536870912. -/
theorem NewBloomFilter_max_size :
    (NewBloomFilter 4294967295).size = 4294967295
      ∧ (NewBloomFilter 4294967295).filter = []
      ∧ (4294967295 + 7) / 8 = 536870912 := by
  decide

/-- Where `size + 7` does not wrap: for `size ≤ 2^32 - 8` the filter has the size
`size` and `ceil(size / 8)` bytes of storage, all of them zero. -/
theorem NewBloomFilter_in_range (size : Nat) (h : size + 7 < U32) :
    (NewBloomFilter size).size = size
      ∧ (NewBloomFilter size).filter.length = (size + 7) / 8
      ∧ ∀ x ∈ (NewBloomFilter size).filter, x = 0 := by
  refine ⟨rfl, ?_, ?_⟩
  · simp [NewBloomFilter, Nat.mod_eq_of_lt h]
  · intro x hx
    exact (List.mem_replicate.mp hx).2

/-! ## C8: index derivation -/

/-- C8: for every key, every modulus `filterSize ≥ 1` and the hash-function set
that `generateHashFns(k)` returns (whatever the clock reads), `murmurHash`
returns exactly `k` indices, the `i`-th being the digest of the key by the
`i`-th function (MurmurHash3 under the `i`-th seed) modulo `filterSize`, and
every index is below `filterSize`. -/
theorem murmurHash_generateHashFns (clock : Nat → Int) (k : Nat) (key : Key)
    (filterSize : Nat) (hpos : 1 ≤ filterSize) :
    ∃ idxs, murmurHash key filterSize (generateHashFns clock k)
        = .ok idxs (generateHashFns clock k)
      ∧ idxs.length = k
      ∧ (∀ (i : Nat) (h : Hash32), (generateHashFns clock k).mHasherFns[i]? = some h →
          idxs[i]? = some ((h.Write key).Sum32 % filterSize))
      ∧ (∀ i : Nat, i < k →
          idxs[i]? = some (murmur3_32 (seedOf (clock i) i) key % filterSize))
      ∧ ∀ idx ∈ idxs, idx < filterSize := by
  have hne : filterSize ≠ 0 := by omega
  have hf := generateHashFns_fresh clock k
  refine ⟨indices key filterSize (generateHashFns clock k),
    murmurHash_fresh key filterSize _ hf hne, ?_, ?_, ?_,
    indices_lt key filterSize _ hne⟩
  · rw [indices_length, ← hf.1]; rfl
  · intro i h hi
    simp only [indices, List.getElem?_map, hi, Option.map_some']
  · intro i hi
    have hget : (generateHashFns clock k).mHasherFns[i]?
        = some (New32WithSeed (seedOf (clock i) i)) := by
      rw [generateHashFns_mHasherFns, List.getElem?_map, List.getElem?_range hi]
      rfl
    simp only [indices, List.getElem?_map, hget, Option.map_some']
    rfl

/-- Witness of C8: five hash functions, the key `"a"`, modulus 800. -/
theorem murmurHash_generateHashFns_witness :
    1 ≤ 800 ∧ ∃ idxs, murmurHash [97] 800 (generateHashFns (fun _ => 0) 5)
        = .ok idxs (generateHashFns (fun _ => 0) 5)
      ∧ idxs.length = 5
      ∧ (∀ (i : Nat) (h : Hash32), (generateHashFns (fun _ => 0) 5).mHasherFns[i]? = some h →
          idxs[i]? = some ((h.Write [97]).Sum32 % 800))
      ∧ (∀ i : Nat, i < 5 →
          idxs[i]? = some (murmur3_32 (seedOf ((fun _ => 0) i) i) [97] % 800))
      ∧ ∀ idx ∈ idxs, idx < 800 :=
  ⟨by decide, murmurHash_generateHashFns (fun _ => 0) 5 [97] 800 (by decide)⟩

/-! ## C9: what `Exists` returns -/

/-- C9: for every filter with `size ≥ 1`, every hash-function set in its reset
state and every key, `murmurHash` returns the indices, and `Exists` returns true
exactly when for every one of them bit `idx % 8` of the storage byte `idx / 8`
is set; when the size lies within the storage `Exists` does return a boolean. -/
theorem Exists_iff_all_bits_set (b : BloomFilter) (hashFns : HashFns) (K : Key)
    (hf : Fresh hashFns) (hsize : 1 ≤ b.size) :
    ∃ idxs, murmurHash K b.size hashFns = .ok idxs hashFns
      ∧ (Exists b K hashFns = .ok true (b, hashFns)
          ↔ ∀ idx ∈ idxs, ∃ x, b.filter[idx / 8]? = some x ∧ x.testBit (idx % 8) = true)
      ∧ (b.size ≤ 8 * b.filter.length →
          ∃ r, Exists b K hashFns = .ok r (b, hashFns)) := by
  have hne : b.size ≠ 0 := by omega
  have hm := murmurHash_fresh K b.size hashFns hf hne
  have hbit : ∀ idx, getBit b.filter idx = true
      ↔ ∃ x, b.filter[idx / 8]? = some x ∧ x.testBit (idx % 8) = true := by
    intro idx
    cases hget : b.filter[idx / 8]? with
    | none =>
      have : getBit b.filter idx = false := by unfold getBit; rw [hget]
      simp [this]
    | some x =>
      rw [getBit_eq_testBit _ _ _ hget]
      simp
  refine ⟨indices K b.size hashFns, hm, ?_, ?_⟩
  · have hiff := Exists.loop_true_iff (indices K b.size hashFns) b.filter
    constructor
    · intro hex idx hidx
      apply (hbit idx).mp
      apply hiff.mp _ idx hidx
      simp only [Exists, hm] at hex
      cases hl : Exists.loop (indices K b.size hashFns) b.filter with
      | none => rw [hl] at hex; exact Outcome.noConfusion hex
      | some r =>
        rw [hl] at hex
        injection hex with h1 _
        rw [h1]
    · intro hall
      have hl : Exists.loop (indices K b.size hashFns) b.filter = some true :=
        hiff.mpr (fun idx hidx => (hbit idx).mpr (hall idx hidx))
      simp only [Exists, hm, hl]
  · intro hle
    exact ⟨_, Exists_safe b K hashFns hf (Or.inr ⟨hne, hle⟩)⟩

/-- Witness of C9: the fresh filter of size 800, five hash functions, key `"a"`. -/
theorem Exists_iff_all_bits_set_witness :
    Fresh (generateHashFns (fun _ => 0) 5) ∧ 1 ≤ (NewBloomFilter 800).size
      ∧ ∃ idxs, murmurHash [97] (NewBloomFilter 800).size (generateHashFns (fun _ => 0) 5)
          = .ok idxs (generateHashFns (fun _ => 0) 5)
        ∧ (Exists (NewBloomFilter 800) [97] (generateHashFns (fun _ => 0) 5)
              = .ok true (NewBloomFilter 800, generateHashFns (fun _ => 0) 5)
            ↔ ∀ idx ∈ idxs, ∃ x, (NewBloomFilter 800).filter[idx / 8]? = some x
                ∧ x.testBit (idx % 8) = true)
        ∧ ((NewBloomFilter 800).size ≤ 8 * (NewBloomFilter 800).filter.length →
            ∃ r, Exists (NewBloomFilter 800) [97] (generateHashFns (fun _ => 0) 5)
              = .ok r (NewBloomFilter 800, generateHashFns (fun _ => 0) 5)) :=
  ⟨by decide, by decide,
    Exists_iff_all_bits_set (NewBloomFilter 800) (generateHashFns (fun _ => 0) 5) [97]
      (by decide) (by decide)⟩

/-! ## C10: determinism of the index derivation -/

/-- C10: for every hash-function set in its reset state, every key and every
modulus `≥ 1`, `murmurHash` returns and leaves the set in the state it found, so
in every state that further returning calls of `murmurHash` (any keys, any
moduli) lead to, the set is again in its reset state and `murmurHash` with the
same key and modulus returns the same indices. -/
theorem murmurHash_deterministic (hashFns : HashFns) (key : Key) (filterSize : Nat)
    (hf : Fresh hashFns) (hpos : 1 ≤ filterSize) :
    ∃ idxs, murmurHash key filterSize hashFns = .ok idxs hashFns
      ∧ ∀ later, Reaches hashFns later →
          Fresh later ∧ murmurHash key filterSize later = .ok idxs later := by
  have hm := murmurHash_fresh key filterSize hashFns hf (by omega)
  refine ⟨_, hm, ?_⟩
  intro later hr
  rw [Reaches_eq hashFns later hf hr]
  exact ⟨hf, hm⟩

/-- Witness of C10: five hash functions, the key `"a"`, modulus 800. -/
theorem murmurHash_deterministic_witness :
    Fresh (generateHashFns (fun _ => 0) 5) ∧ 1 ≤ 800
      ∧ ∃ idxs, murmurHash [97] 800 (generateHashFns (fun _ => 0) 5)
          = .ok idxs (generateHashFns (fun _ => 0) 5)
        ∧ ∀ later, Reaches (generateHashFns (fun _ => 0) 5) later →
            Fresh later ∧ murmurHash [97] 800 later = .ok idxs later :=
  ⟨by decide, by decide,
    murmurHash_deterministic (generateHashFns (fun _ => 0) 5) [97] 800 (by decide) (by decide)⟩

/-! # Further lemmas -/

theorem getBit_iff (filter : List Nat) (p : Nat) :
    getBit filter p = true ↔ bitIsSet filter p := by
  unfold bitIsSet
  cases hget : filter[p / 8]? with
  | none =>
    have : getBit filter p = false := by unfold getBit; rw [hget]
    simp [this]
  | some x =>
    rw [getBit_eq_testBit _ _ _ hget]
    simp

theorem Add.loop_effect (idxs : List Nat) :
    ∀ (filter f1 : List Nat),
      (Add.loop idxs filter = .ok f1 ∨ Add.loop idxs filter = .error f1) →
      f1.length = filter.length
        ∧ (∀ p, getBit filter p = true → getBit f1 p = true)
        ∧ ∀ p, p ∉ idxs → getBit f1 p = getBit filter p := by
  induction idxs with
  | nil =>
    intro filter f1 h
    have : f1 = filter := by
      rcases h with h | h
      · rw [Add.loop] at h; injection h with h; exact h.symm
      · rw [Add.loop] at h; exact Except.noConfusion h
    subst this
    exact ⟨rfl, fun _ h => h, fun _ _ => rfl⟩
  | cons idx idxs ih =>
    intro filter f1 h
    cases hget : filter[idx / 8]? with
    | none =>
      have : f1 = filter := by
        rcases h with h | h
        · rw [Add.loop, hget] at h; exact Except.noConfusion h
        · rw [Add.loop, hget] at h; injection h with h; exact h.symm
      subst this
      exact ⟨rfl, fun _ h => h, fun _ _ => rfl⟩
    | some x =>
      have hidx : idx / 8 < filter.length := by
        by_contra hc
        rw [List.getElem?_eq_none (by omega)] at hget
        exact Option.noConfusion hget
      have hset : filter.set (idx / 8) ((x ||| bitMask (idx % 8)) % 256)
          = setBit filter idx := by
        unfold setBit; rw [hget]
      rw [Add.loop, hget] at h
      simp only [hset] at h
      obtain ⟨h1, h2, h3⟩ := ih (setBit filter idx) f1 h
      refine ⟨by rw [h1, setBit_length], ?_, ?_⟩
      · intro p hp
        exact h2 p (getBit_setBit_of_getBit filter idx p hp)
      · intro p hp
        have hne : idx ≠ p := fun e => hp (by rw [e]; exact List.mem_cons_self _ _)
        have hni : p ∉ idxs := fun e => hp (List.mem_cons_of_mem _ e)
        rw [h3 p hni, getBit_setBit _ _ _ hidx]
        simp [hne]

theorem murmurHash.loop_lt (key : Key) (filterSize : Nat) :
    ∀ (n i : Nat) (idxs : List Nat) (hashFns : HashFns) (idxs1 : List Nat)
      (hashFns1 : HashFns),
      murmurHash.loop key filterSize n i idxs hashFns = .ok idxs1 hashFns1 →
      (∀ idx ∈ idxs, idx < filterSize) → ∀ idx ∈ idxs1, idx < filterSize := by
  intro n
  induction n with
  | zero =>
    intro i idxs hashFns idxs1 hashFns1 h hlt
    rw [murmurHash.loop] at h
    injection h with h1 _
    rw [← h1]; exact hlt
  | succ n ih =>
    intro i idxs hashFns idxs1 hashFns1 h hlt
    rw [murmurHash.loop] at h
    cases hget : hashFns.mHasherFns[i]? with
    | none => rw [hget] at h; exact Outcome.noConfusion h
    | some hasher =>
      rw [hget] at h
      by_cases hz : filterSize = 0
      · simp only [hz, if_true] at h
        exact Outcome.noConfusion h
      · simp only [hz, if_false] at h
        refine ih _ _ _ _ _ h ?_
        intro idx hidx
        rcases List.mem_append.mp hidx with h1 | h1
        · exact hlt idx h1
        · rw [List.mem_singleton] at h1
          rw [h1]
          exact Nat.mod_lt _ (Nat.pos_of_ne_zero hz)

theorem murmurHash_lt (key : Key) (filterSize : Nat) (hashFns hashFns1 : HashFns)
    (idxs : List Nat) (h : murmurHash key filterSize hashFns = .ok idxs hashFns1) :
    ∀ idx ∈ idxs, idx < filterSize :=
  murmurHash.loop_lt key filterSize _ _ _ _ _ _ h (fun _ hm => nomatch hm)

theorem Add_state (b : BloomFilter) (key : Key) (hashFns : HashFns) :
    (Add b key hashFns).state.1.size = b.size
      ∧ (Add b key hashFns).state.1.filter.length = b.filter.length
      ∧ (∀ p, getBit b.filter p = true → getBit (Add b key hashFns).state.1.filter p = true)
      ∧ ∀ p, b.size ≤ p → getBit (Add b key hashFns).state.1.filter p = getBit b.filter p := by
  cases hm : murmurHash key b.size hashFns with
  | panic why h1 =>
    have hA : Add b key hashFns = .panic why (b, h1) := by simp only [Add, hm]
    rw [hA]
    exact ⟨rfl, rfl, fun _ h => h, fun _ _ => rfl⟩
  | ok idxs h1 =>
    have hlt := murmurHash_lt key b.size hashFns h1 idxs hm
    cases hl : Add.loop idxs b.filter with
    | error f1 =>
      have hA : Add b key hashFns
          = .panic .indexOutOfRange ({ b with filter := f1 }, h1) := by
        simp only [Add, hm, hl]
      obtain ⟨e1, e2, e3⟩ := Add.loop_effect idxs b.filter f1 (Or.inr hl)
      rw [hA]
      refine ⟨rfl, e1, e2, ?_⟩
      intro p hp
      exact e3 p (fun hmem => by have := hlt p hmem; omega)
    | ok f1 =>
      have hA : Add b key hashFns = .ok () ({ b with filter := f1 }, h1) := by
        simp only [Add, hm, hl]
      obtain ⟨e1, e2, e3⟩ := Add.loop_effect idxs b.filter f1 (Or.inl hl)
      rw [hA]
      refine ⟨rfl, e1, e2, ?_⟩
      intro p hp
      exact e3 p (fun hmem => by have := hlt p hmem; omega)

/-! ## C11: bits are never cleared, the size never changes -/

/-- C11: for every filter, hash-function set and key, in the state `Add` leaves
(when it returns, and also when it panics) the size field and the length of the
storage are what they were, and every bit that was set before is still set. -/
theorem add_keeps_bits_and_size (b : BloomFilter) (hashFns : HashFns) (K : Key) :
    (Add b K hashFns).state.1.size = b.size
      ∧ (Add b K hashFns).state.1.filter.length = b.filter.length
      ∧ ∀ p, bitIsSet b.filter p → bitIsSet (Add b K hashFns).state.1.filter p := by
  obtain ⟨h1, h2, h3, -⟩ := Add_state b K hashFns
  refine ⟨h1, h2, ?_⟩
  intro p hp
  exact (getBit_iff _ _).mp (h3 p ((getBit_iff _ _).mpr hp))

/-! ## C12: seeds -/

/-- Seeds under a clock that does not advance during the call: if every reading
is the same `t`, the seeds of any two of up to `2^32` functions differ. -/
theorem seedOf_injective_of_constant_clock (t : Int) (i j : Nat) (hij : i < j)
    (hj : j < U32) : seedOf t i ≠ seedOf t j := by
  unfold seedOf
  rw [U32_eq] at hj ⊢
  omega

/-- C12, at the failing input: with two hash functions and the clock readings
`1700000000000000000` and, 4294967295 ns later, `1700000004294967295`, both
functions get the seed 908722176 (the second sum wraps around), and so derive
the same index for the key `"a"`. -/
theorem seeds_collide :
    (generateHashFns (fun i => if i = 0 then 1700000000000000000 else 1700000004294967295)
        2).mHasherFns.map Hash32.seed = [908722176, 908722176]
      ∧ murmurHash [97] 800
          (generateHashFns (fun i => if i = 0 then 1700000000000000000 else 1700000004294967295) 2)
        = .ok [358, 358]
          (generateHashFns (fun i => if i = 0 then 1700000000000000000 else 1700000004294967295)
            2) := by
  decide

/-! ## C13: the empty hash-function set -/

/-- C13: `generateHashFns(0)` returns the set with no function and size 0, and
for every key and every modulus, zero included, `murmurHash` on it returns the
empty index sequence and leaves the set as it is. -/
theorem murmurHash_generateHashFns_zero (clock : Nat → Int) (key : Key) (filterSize : Nat) :
    generateHashFns clock 0 = { mHasherFns := [], size := 0 }
      ∧ murmurHash key filterSize (generateHashFns clock 0)
        = .ok [] (generateHashFns clock 0) :=
  ⟨rfl, rfl⟩

/-! ## C14: `Exists` does not change the filter -/

/-- C14: for every filter, hash-function set and key, the filter in the state
that `Exists` leaves (whether it returns true, returns false or panics) is the
filter it was called on: same storage, same size. -/
theorem exists_read_only (b : BloomFilter) (hashFns : HashFns) (K : Key) :
    (Exists b K hashFns).state.1 = b
      ∧ ∀ r st, Exists b K hashFns = .ok r st → st.1.filter = b.filter ∧ st.1.size = b.size := by
  have h0 : (Exists b K hashFns).state.1 = b := by
    cases hm : murmurHash K b.size hashFns with
    | panic why h1 => simp only [Exists, hm, Outcome.state]
    | ok idxs h1 =>
      cases hl : Exists.loop idxs b.filter with
      | none => simp only [Exists, hm, hl, Outcome.state]
      | some r => simp only [Exists, hm, hl, Outcome.state]
  refine ⟨h0, ?_⟩
  intro r st h
  rw [h] at h0
  have : st.1 = b := h0
  rw [this]
  exact ⟨rfl, rfl⟩

/-! ## C15: the exact effect of `Add` -/

/-- C15: for every filter with `size ≥ 1` whose storage covers the size, every
hash-function set in its reset state and every key, `murmurHash` returns the
indices, `Add` returns, and in the filter it leaves a bit position is set
exactly when it was set before or is one of the indices; size and storage
length are unchanged. -/
theorem add_sets_exactly_the_indices (b : BloomFilter) (hashFns : HashFns) (K : Key)
    (hf : Fresh hashFns) (h1 : 1 ≤ b.size) (h2 : b.size ≤ 8 * b.filter.length) :
    ∃ idxs b1, murmurHash K b.size hashFns = .ok idxs hashFns
      ∧ Add b K hashFns = .ok () (b1, hashFns)
      ∧ b1.size = b.size ∧ b1.filter.length = b.filter.length
      ∧ ∀ j, bitIsSet b1.filter j ↔ (bitIsSet b.filter j ∨ j ∈ idxs) := by
  have hs : Safe b hashFns := Or.inr ⟨by omega, h2⟩
  obtain ⟨hm, hin⟩ := murmurHash_safe b K hashFns hf hs
  refine ⟨indices K b.size hashFns,
    { b with filter := (indices K b.size hashFns).foldl setBit b.filter }, hm,
    Add_safe b K hashFns hf hs, rfl, foldl_setBit_length _ _, ?_⟩
  intro j
  rw [← getBit_iff, ← getBit_iff]
  show getBit ((indices K b.size hashFns).foldl setBit b.filter) j = true ↔ _
  rw [getBit_foldl_setBit _ _ _ hin]
  simp

/-- Witness of C15: the fresh filter of size 800, five hash functions, key `"a"`. -/
theorem add_sets_exactly_the_indices_witness :
    Fresh (generateHashFns (fun _ => 0) 5) ∧ 1 ≤ (NewBloomFilter 800).size
      ∧ (NewBloomFilter 800).size ≤ 8 * (NewBloomFilter 800).filter.length
      ∧ ∃ idxs b1, murmurHash [97] (NewBloomFilter 800).size (generateHashFns (fun _ => 0) 5)
          = .ok idxs (generateHashFns (fun _ => 0) 5)
        ∧ Add (NewBloomFilter 800) [97] (generateHashFns (fun _ => 0) 5)
          = .ok () (b1, generateHashFns (fun _ => 0) 5)
        ∧ b1.size = (NewBloomFilter 800).size
        ∧ b1.filter.length = (NewBloomFilter 800).filter.length
        ∧ ∀ j, bitIsSet b1.filter j ↔ (bitIsSet (NewBloomFilter 800).filter j ∨ j ∈ idxs) :=
  ⟨by decide, by decide, by decide,
    add_sets_exactly_the_indices (NewBloomFilter 800) (generateHashFns (fun _ => 0) 5) [97]
      (by decide) (by decide) (by decide)⟩

/-! ## C16: false positives -/

theorem indices_one (key : Key) (hashFns : HashFns) :
    ∀ idx ∈ indices key 1 hashFns, idx = 0 := by
  intro idx hidx
  have := indices_lt key 1 hashFns (by decide) idx hidx
  omega

theorem add_exists_size_one (hashFns : HashFns) (K K1 : Key) (hf : Fresh hashFns)
    (hk : 1 ≤ hashFns.size) :
    ∃ b1, Add (NewBloomFilter 1) K hashFns = .ok () (b1, hashFns)
      ∧ Exists b1 K1 hashFns = .ok true (b1, hashFns) := by
  have hs : Safe (NewBloomFilter 1) hashFns := NewBloomFilter_safe 1 hashFns (by decide) (by decide)
  have hin : ∀ idx ∈ indices K 1 hashFns, idx / 8 < (NewBloomFilter 1).filter.length :=
    (murmurHash_safe (NewBloomFilter 1) K hashFns hf hs).2
  have hlen := foldl_setBit_length (indices K (NewBloomFilter 1).size hashFns)
    (NewBloomFilter 1).filter
  refine ⟨{ NewBloomFilter 1 with
      filter := (indices K (NewBloomFilter 1).size hashFns).foldl setBit
        (NewBloomFilter 1).filter }, Add_safe _ K hashFns hf hs, ?_⟩
  have hs1 := Safe_of_eq (NewBloomFilter 1)
    { NewBloomFilter 1 with
      filter := (indices K (NewBloomFilter 1).size hashFns).foldl setBit
        (NewBloomFilter 1).filter } hashFns hs rfl hlen
  rw [Exists_safe _ K1 hashFns hf hs1]
  have hmem : 0 ∈ indices K 1 hashFns := by
    have hne := indices_ne_nil K 1 hashFns hf (by omega)
    cases hi : indices K 1 hashFns with
    | nil => exact absurd hi hne
    | cons idx idxs =>
      have : idx = 0 := indices_one K hashFns idx (by rw [hi]; exact List.mem_cons_self _ _)
      rw [this]; exact List.mem_cons_self _ _
  have hall : (indices K1 1 hashFns).all
      (getBit ((indices K 1 hashFns).foldl setBit (NewBloomFilter 1).filter)) = true := by
    rw [List.all_eq_true]
    intro idx hidx
    rw [indices_one K1 hashFns idx hidx, getBit_foldl_setBit _ _ _ hin]
    simp [hmem]
  show Outcome.ok ((indices K1 1 hashFns).all
      (getBit ((indices K 1 hashFns).foldl setBit (NewBloomFilter 1).filter))) _ = _
  rw [hall]

/-- C16: false positives exist. There are a size, a hash-function set with at
least one function and two distinct keys such that after the single insertion of
the first key into the fresh filter `Exists` returns true for the second. In
particular, with size 1 and any hash-function set with at least one function (in
its reset state) every index that `murmurHash` derives is 0, so after one `Add`
of any key `Exists` returns true for every key. -/
theorem false_positives_exist :
    (∃ (size : Nat) (hashFns : HashFns) (K K1 : Key) (b1 : BloomFilter),
        K ≠ K1 ∧ Fresh hashFns ∧ 1 ≤ hashFns.size
        ∧ Add (NewBloomFilter size) K hashFns = .ok () (b1, hashFns)
        ∧ Exists b1 K1 hashFns = .ok true (b1, hashFns))
      ∧ ∀ (hashFns : HashFns) (K K1 : Key), Fresh hashFns → 1 ≤ hashFns.size →
          (∀ key : Key, ∃ idxs, murmurHash key 1 hashFns = .ok idxs hashFns
              ∧ ∀ idx ∈ idxs, idx = 0)
          ∧ ∃ b1, Add (NewBloomFilter 1) K hashFns = .ok () (b1, hashFns)
              ∧ Exists b1 K1 hashFns = .ok true (b1, hashFns) := by
  constructor
  · obtain ⟨b1, h1, h2⟩ := add_exists_size_one (generateHashFns (fun _ => 0) 1) [97] [98]
      (by decide) (by decide)
    exact ⟨1, generateHashFns (fun _ => 0) 1, [97], [98], b1, by decide, by decide,
      by decide, h1, h2⟩
  · intro hashFns K K1 hf hk
    refine ⟨?_, add_exists_size_one hashFns K K1 hf hk⟩
    intro key
    exact ⟨indices key 1 hashFns, murmurHash_fresh key 1 hashFns hf (by decide),
      indices_one key hashFns⟩

/-- Witness of C16: size 1, one hash function, the keys `"a"` and `"b"`. -/
theorem false_positives_exist_witness :
    ([97] : Key) ≠ [98] ∧ Fresh (generateHashFns (fun _ => 0) 1)
      ∧ 1 ≤ (generateHashFns (fun _ => 0) 1).size
      ∧ ∃ b1, Add (NewBloomFilter 1) [97] (generateHashFns (fun _ => 0) 1)
          = .ok () (b1, generateHashFns (fun _ => 0) 1)
        ∧ Exists b1 [98] (generateHashFns (fun _ => 0) 1)
          = .ok true (b1, generateHashFns (fun _ => 0) 1) :=
  ⟨by decide, by decide, by decide,
    (false_positives_exist.2 (generateHashFns (fun _ => 0) 1) [97] [98] (by decide)
      (by decide)).2⟩

/-! ## C17: the order of the insertions -/

theorem foldl_setBit_absorb (idxs : List Nat) (filter : List Nat) (idx : Nat)
    (hmem : idx ∈ idxs) : setBit (idxs.foldl setBit filter) idx = idxs.foldl setBit filter := by
  induction idxs generalizing filter with
  | nil => cases hmem
  | cons a idxs ih =>
    rw [List.foldl_cons]
    rcases List.mem_cons.mp hmem with h | h
    · subst h
      rw [← foldl_setBit_comm, setBit_idem]
    · exact ih _ h

theorem foldl_setBit_swap (l1 l2 : List Nat) (filter : List Nat) :
    l2.foldl setBit (l1.foldl setBit filter) = l1.foldl setBit (l2.foldl setBit filter) := by
  induction l2 generalizing filter with
  | nil => rfl
  | cons a l2 ih =>
    rw [List.foldl_cons, List.foldl_cons, ← foldl_setBit_comm, ih]

theorem foldl_setBit_subset (l1 l2 : List Nat) (filter : List Nat)
    (hsub : ∀ x ∈ l2, x ∈ l1) :
    l2.foldl setBit (l1.foldl setBit filter) = l1.foldl setBit filter := by
  induction l2 with
  | nil => rfl
  | cons a l2 ih =>
    rw [List.foldl_cons, foldl_setBit_absorb l1 filter a (hsub a (List.mem_cons_self _ _))]
    exact ih (fun x hx => hsub x (List.mem_cons_of_mem _ hx))

theorem foldl_setBit_congr (l1 l2 : List Nat) (filter : List Nat)
    (h : ∀ x, x ∈ l1 ↔ x ∈ l2) : l1.foldl setBit filter = l2.foldl setBit filter := by
  rw [← foldl_setBit_subset l1 l2 filter (fun x hx => (h x).mpr hx), foldl_setBit_swap,
    foldl_setBit_subset l2 l1 filter (fun x hx => (h x).mp hx)]

theorem mem_allIndices (filterSize : Nat) (hashFns : HashFns) (keys : List Key) (idx : Nat) :
    idx ∈ allIndices filterSize hashFns keys
      ↔ ∃ key ∈ keys, idx ∈ indices key filterSize hashFns := by
  induction keys with
  | nil => simp [allIndices]
  | cons key keys ih => simp [allIndices, ih]

theorem addKeys_safe_eq (keys : List Key) (b : BloomFilter) (hashFns : HashFns)
    (hf : Fresh hashFns) (hs : Safe b hashFns) :
    addKeys keys b hashFns
      = .ok () ({ b with filter := (allIndices b.size hashFns keys).foldl setBit b.filter },
          hashFns) := by
  induction keys generalizing b with
  | nil => rfl
  | cons key keys ih =>
    have hlen : ((indices key b.size hashFns).foldl setBit b.filter).length
        = b.filter.length := foldl_setBit_length _ _
    have hs1 := Safe_of_eq b
      { b with filter := (indices key b.size hashFns).foldl setBit b.filter } hashFns hs rfl hlen
    simp only [addKeys, Add_safe b key hashFns hf hs, ih _ hs1, allIndices, List.foldl_append]

theorem Add_unsafe (b : BloomFilter) (key : Key) (hashFns : HashFns) (hb : Built b)
    (hf : Fresh hashFns) (h1 : 1 ≤ b.size) (hs : ¬ Safe b hashFns) :
    Add b key hashFns = .panic .indexOutOfRange (b, hashFns) := by
  have hk : hashFns.size ≠ 0 := fun h => hs (Or.inl h)
  have hnil : b.filter = [] := by
    by_contra hne
    exact hs (Built_safe b hashFns hb hne)
  have hm := murmurHash_fresh key b.size hashFns hf (by omega)
  have hne := indices_ne_nil key b.size hashFns hf hk
  have hl : Add.loop (indices key b.size hashFns) b.filter = .error [] := by
    rw [hnil]
    cases hi : indices key b.size hashFns with
    | nil => exact absurd hi hne
    | cons idx idxs => simp [Add.loop]
  have hbb : ({ b with filter := [] } : BloomFilter) = b := by
    cases b
    simp only at hnil
    rw [hnil]
  simp only [Add, hm, hl, hbb]

theorem addKeys_congr (b : BloomFilter) (hashFns : HashFns) (hb : Built b)
    (hf : Fresh hashFns) (h1 : 1 ≤ b.size) (keys1 keys2 : List Key)
    (h : ∀ key, key ∈ keys1 ↔ key ∈ keys2) :
    addKeys keys1 b hashFns = addKeys keys2 b hashFns := by
  by_cases hs : Safe b hashFns
  · rw [addKeys_safe_eq keys1 b hashFns hf hs, addKeys_safe_eq keys2 b hashFns hf hs]
    have : (allIndices b.size hashFns keys1).foldl setBit b.filter
        = (allIndices b.size hashFns keys2).foldl setBit b.filter := by
      apply foldl_setBit_congr
      intro idx
      rw [mem_allIndices, mem_allIndices]
      constructor
      · rintro ⟨key, hk, hi⟩; exact ⟨key, (h key).mp hk, hi⟩
      · rintro ⟨key, hk, hi⟩; exact ⟨key, (h key).mpr hk, hi⟩
    rw [this]
  · cases keys1 with
    | nil =>
      cases keys2 with
      | nil => rfl
      | cons k2 keys2 => exact absurd ((h k2).mpr (List.mem_cons_self _ _)) (List.not_mem_nil _)
    | cons k1 keys1 =>
      cases keys2 with
      | nil => exact absurd ((h k1).mp (List.mem_cons_self _ _)) (List.not_mem_nil _)
      | cons k2 keys2 =>
        simp only [addKeys, Add_unsafe b _ hashFns hb hf h1 hs]

/-- C17: for every filter with `size ≥ 1` and the storage `NewBloomFilter` gives
it, every hash-function set in its reset state and all keys `K1`, `K2`, the
outcome of `Add(K1); Add(K2)` equals the outcome of `Add(K2); Add(K1)` (the same
storage, size and hash-function state); more generally two sequences of
insertions with the same set of keys have the same outcome, whatever the order
and the multiplicities; and the insertions return when the storage covers the
size. -/
theorem add_commutative (b : BloomFilter) (hashFns : HashFns) (K1 K2 : Key)
    (hb : Built b) (hf : Fresh hashFns) (h1 : 1 ≤ b.size) :
    addKeys [K1, K2] b hashFns = addKeys [K2, K1] b hashFns
      ∧ (∀ keys1 keys2 : List Key, (∀ key, key ∈ keys1 ↔ key ∈ keys2) →
          addKeys keys1 b hashFns = addKeys keys2 b hashFns)
      ∧ (b.size ≤ 8 * b.filter.length →
          ∀ keys : List Key, ∃ b1, addKeys keys b hashFns = .ok () (b1, hashFns)) := by
  refine ⟨?_, addKeys_congr b hashFns hb hf h1, ?_⟩
  · apply addKeys_congr b hashFns hb hf h1
    intro key
    simp only [List.mem_cons, List.mem_singleton, List.not_mem_nil, or_false]
    exact Or.comm
  · intro hle keys
    exact ⟨_, addKeys_safe_eq keys b hashFns hf (Or.inr ⟨by omega, hle⟩)⟩

/-- Witness of C17: the fresh filter of size 800, five hash functions, the keys
`"a"` and `"b"`. -/
theorem add_commutative_witness :
    Built (NewBloomFilter 800) ∧ Fresh (generateHashFns (fun _ => 0) 5)
      ∧ 1 ≤ (NewBloomFilter 800).size
      ∧ addKeys [[97], [98]] (NewBloomFilter 800) (generateHashFns (fun _ => 0) 5)
        = addKeys [[98], [97]] (NewBloomFilter 800) (generateHashFns (fun _ => 0) 5) :=
  ⟨by decide, by decide, by decide,
    (add_commutative (NewBloomFilter 800) (generateHashFns (fun _ => 0) 5) [97] [98]
      (by decide) (by decide) (by decide)).1⟩

/-! ## C18: the bits past the size -/

theorem addCalls_state (calls : List (Key × HashFns)) (b : BloomFilter) :
    (addCalls calls b).state.size = b.size
      ∧ (addCalls calls b).state.filter.length = b.filter.length
      ∧ ∀ p, b.size ≤ p → getBit (addCalls calls b).state.filter p = getBit b.filter p := by
  induction calls generalizing b with
  | nil => exact ⟨rfl, rfl, fun _ _ => rfl⟩
  | cons call calls ih =>
    obtain ⟨key, hashFns⟩ := call
    obtain ⟨a1, a2, -, a4⟩ := Add_state b key hashFns
    cases hA : Add b key hashFns with
    | panic why st =>
      obtain ⟨b1, h1⟩ := st
      rw [hA] at a1 a2 a4
      have : addCalls ((key, hashFns) :: calls) b = .panic why b1 := by
        simp only [addCalls, hA]
      rw [this]
      exact ⟨a1, a2, a4⟩
    | ok u st =>
      obtain ⟨b1, h1⟩ := st
      rw [hA] at a1 a2 a4
      have : addCalls ((key, hashFns) :: calls) b = addCalls calls b1 := by
        simp only [addCalls, hA]
      rw [this]
      obtain ⟨i1, i2, i3⟩ := ih b1
      have e1 : b1.size = b.size := a1
      have e2 : b1.filter.length = b.filter.length := a2
      refine ⟨by rw [i1, e1], by rw [i2, e2], ?_⟩
      intro p hp
      rw [i3 p (by omega)]
      exact a4 p hp

/-- C18: for every size (in particular every `size ≥ 1`) and every finite
sequence of `Add` calls, with any keys and any hash-function sets, on the filter
that `NewBloomFilter(size)` returns, in the state the calls leave (the last
returned, or one panicked) the storage has the length it had and every bit
position `p` with `size ≤ p` inside the storage is clear. -/
theorem padding_bits_stay_clear (size : Nat) (calls : List (Key × HashFns)) :
    (addCalls calls (NewBloomFilter size)).state.filter.length
        = (NewBloomFilter size).filter.length
      ∧ ∀ p x, size ≤ p →
          (addCalls calls (NewBloomFilter size)).state.filter[p / 8]? = some x →
          x.testBit (p % 8) = false := by
  obtain ⟨-, c2, c3⟩ := addCalls_state calls (NewBloomFilter size)
  refine ⟨c2, ?_⟩
  intro p x hp hx
  have := c3 p hp
  rw [getBit_eq_testBit _ _ _ hx] at this
  rw [this]
  exact getBit_replicate_zero _ _

/-- Witness of C18: size 9 (two bytes, padding bits 9 to 15), two insertions with
different hash-function sets, which leave the storage `[66, 1]`; bit 12. -/
theorem padding_bits_stay_clear_witness :
    9 ≤ 12
      ∧ (addCalls [([97], generateHashFns (fun _ => 0) 3), ([98], generateHashFns (fun _ => 5) 2)]
            (NewBloomFilter 9)).state.filter[12 / 8]? = some 1
      ∧ Nat.testBit 1 (12 % 8) = false :=
  ⟨by decide, by decide,
    (padding_bits_stay_clear 9
      [([97], generateHashFns (fun _ => 0) 3), ([98], generateHashFns (fun _ => 5) 2)]).2
      12 1 (by decide) (by decide)⟩

/-! ## C19: the empty hash-function set in use -/

/-- C19: with a hash-function set of size 0, for every filter (whatever its size
and storage) and every key, `Exists` returns true and `Add` returns and leaves
the filter and the hash-function set as they were. -/
theorem empty_hash_set (b : BloomFilter) (hashFns : HashFns) (K : Key)
    (hk : hashFns.size = 0) :
    Exists b K hashFns = .ok true (b, hashFns) ∧ Add b K hashFns = .ok () (b, hashFns) := by
  have hm := murmurHash_nil K b.size hashFns hk
  constructor
  · simp only [Exists, hm, Exists.loop]
  · simp only [Add, hm, Add.loop]

/-- Witness of C19: the filter of size 16 with storage `[1, 0]`, the key `"a"`. -/
theorem empty_hash_set_witness :
    (generateHashFns (fun _ => 0) 0).size = 0
      ∧ Exists { filter := [1, 0], size := 16 } [97] (generateHashFns (fun _ => 0) 0)
        = .ok true ({ filter := [1, 0], size := 16 }, generateHashFns (fun _ => 0) 0)
      ∧ Add { filter := [1, 0], size := 16 } [97] (generateHashFns (fun _ => 0) 0)
        = .ok () ({ filter := [1, 0], size := 16 }, generateHashFns (fun _ => 0) 0) :=
  ⟨by decide,
    empty_hash_set { filter := [1, 0], size := 16 } (generateHashFns (fun _ => 0) 0) [97]
      (by decide)⟩

/-! ## C20: the filter of size zero in use -/

/-- C20: on the filter `NewBloomFilter(0)`, with every hash-function set with at
least one function (in its reset state) and every key, `murmurHash` panics on the
modulus by zero, so `Add` and `Exists` both panic with a division by zero, and
the filter in the state they leave is `NewBloomFilter(0)`, unchanged. -/
theorem zero_size_filter_in_use (hashFns : HashFns) (K : Key) (hf : Fresh hashFns)
    (hk : 1 ≤ hashFns.size) :
    ∃ hashFns1, murmurHash K (NewBloomFilter 0).size hashFns = .panic .divideByZero hashFns1
      ∧ Add (NewBloomFilter 0) K hashFns = .panic .divideByZero (NewBloomFilter 0, hashFns1)
      ∧ Exists (NewBloomFilter 0) K hashFns
        = .panic .divideByZero (NewBloomFilter 0, hashFns1) := by
  obtain ⟨st, hm⟩ := murmurHash_zero K hashFns hf (by omega)
  have hm1 : murmurHash K (NewBloomFilter 0).size hashFns = .panic .divideByZero st := hm
  exact ⟨st, hm1, by simp only [Add, hm1], by simp only [Exists, hm1]⟩

/-- Witness of C20: one hash function, the key `"a"`. -/
theorem zero_size_filter_in_use_witness :
    Fresh (generateHashFns (fun _ => 0) 1) ∧ 1 ≤ (generateHashFns (fun _ => 0) 1).size
      ∧ ∃ hashFns1, murmurHash [97] (NewBloomFilter 0).size (generateHashFns (fun _ => 0) 1)
          = .panic .divideByZero hashFns1
        ∧ Add (NewBloomFilter 0) [97] (generateHashFns (fun _ => 0) 1)
          = .panic .divideByZero (NewBloomFilter 0, hashFns1)
        ∧ Exists (NewBloomFilter 0) [97] (generateHashFns (fun _ => 0) 1)
          = .panic .divideByZero (NewBloomFilter 0, hashFns1) :=
  ⟨by decide, by decide,
    zero_size_filter_in_use (generateHashFns (fun _ => 0) 1) [97] (by decide) (by decide)⟩

end BloomFilter
